import Mathlib

/-!
Shallow embedding of the geometry and camera-animation core of the
`minecrust` repository.

* `src/geometry/aabb.rs` — axis-aligned bounding boxes (`AABB`, `Octants`,
  `Face`): construction, merging, point/face queries, octant partition.
  The exact-arithmetic model uses `ℚ` for the scalar type (`f32` in the
  source); a separate extended-value model `FVal` captures the IEEE special
  values (infinities, NaN) where a claim is about them.
* `src/utils/vec3f.rs` and `src/ecs.rs` — `yaw_pitch_diff` and
  `CameraAnimation`, modelled over `ℝ` because they use the transcendental
  functions `atan2`, `asin`, `sin`, `cos`.

The componentwise point primitives (`point3f::midpoint/min/max`), the scalar
helpers (`f32::almost_eq/atan2/asin`) and the `Camera` type live in files of
the repository that are not part of the provided sources; those few
definitions are modelled from the specification and are marked as such.
-/

/-- A 3-vector over `ℚ`, the exact-arithmetic model of both `Point3f` and
`Vector3f` from the source. -/
@[ext]
structure Vec3 where
  x : ℚ
  y : ℚ
  z : ℚ
deriving DecidableEq, Repr

namespace Vec3

def add (a b : Vec3) : Vec3 := ⟨a.x + b.x, a.y + b.y, a.z + b.z⟩

def sub (a b : Vec3) : Vec3 := ⟨a.x - b.x, a.y - b.y, a.z - b.z⟩

def neg (a : Vec3) : Vec3 := ⟨-a.x, -a.y, -a.z⟩

/-- Scalar division, used for `(max - min) / 2.0`. -/
def sdiv (a : Vec3) (s : ℚ) : Vec3 := ⟨a.x / s, a.y / s, a.z / s⟩

/-- Dot product (`Vector3f::dot` from the nalgebra primitive library). -/
def dot (a b : Vec3) : ℚ := a.x * b.x + a.y * b.y + a.z * b.z

/-- `Vector3f::x_axis()`. -/
def xAxis : Vec3 := ⟨1, 0, 0⟩

/-- `Vector3f::y_axis()`. -/
def yAxis : Vec3 := ⟨0, 1, 0⟩

/-- `Vector3f::z_axis()`. -/
def zAxis : Vec3 := ⟨0, 0, 1⟩

/-- Modelled from the spec: `point3f::min` (file `src/utils/point3f.rs` is
absent from the provided sources) — the componentwise minimum of two points,
as used by `new_min_max` to make argument order irrelevant. -/
def pmin (a b : Vec3) : Vec3 := ⟨min a.x b.x, min a.y b.y, min a.z b.z⟩

/-- Modelled from the spec: `point3f::max` — componentwise maximum. -/
def pmax (a b : Vec3) : Vec3 := ⟨max a.x b.x, max a.y b.y, max a.z b.z⟩

/-- Modelled from the spec: `point3f::midpoint` — the componentwise average
of two points, the `center` of a box built from two corners. -/
def midpoint (a b : Vec3) : Vec3 :=
  ⟨(a.x + b.x) / 2, (a.y + b.y) / 2, (a.z + b.z) / 2⟩

/-- Componentwise `≤` on vectors, used to phrase the non-negativity
invariant on extents. -/
def cle (a b : Vec3) : Prop := a.x ≤ b.x ∧ a.y ≤ b.y ∧ a.z ≤ b.z

instance (a b : Vec3) : Decidable (cle a b) := by
  unfold cle; infer_instance

end Vec3

/-- The six box faces, `enum Face` from `src/geometry/aabb.rs`. -/
inductive Face where
  | Top
  | Front
  | Left
  | Right
  | Back
  | Bottom
deriving DecidableEq, Repr

/-- `struct AABB { center: Point3f, extents: Vector3f }` from
`src/geometry/aabb.rs`. -/
structure AABB where
  center : Vec3
  extents : Vec3
deriving DecidableEq, Repr

/-- `struct Octants` from `src/geometry/aabb.rs`: the eight named octants
of a partition. -/
structure Octants where
  tfr : AABB
  tfl : AABB
  tbr : AABB
  tbl : AABB
  bfr : AABB
  bfl : AABB
  bbr : AABB
  bbl : AABB
deriving DecidableEq, Repr

namespace AABB

/-- `AABB::new_min_max`.  In the exact `ℚ` model the assertion
`extents.x >= 0 && …` always holds (see `new_min_max_extents_nonneg`), so
the function is total here; the assertion's behaviour on IEEE special
values is modelled separately by `AABBF.new_min_max_f`. -/
def new_min_max (mn mx : Vec3) : AABB :=
  { center := Vec3.midpoint mn mx
    extents := Vec3.sdiv (Vec3.sub (Vec3.pmax mn mx) (Vec3.pmin mn mx)) 2 }

/-- `AABB::min`. -/
def min (a : AABB) : Vec3 := Vec3.sub a.center a.extents

/-- `AABB::max`. -/
def max (a : AABB) : Vec3 := Vec3.add a.center a.extents

/-- `AABB::merge_two_aabbs`. -/
def merge_two_aabbs (a b : AABB) : AABB :=
  new_min_max (Vec3.pmin a.min b.min) (Vec3.pmax a.max b.max)

/-- `AABB::merge_aabbs`.  The source indexes `aabbs[0]`, which panics on an
empty slice; that fallible path is modelled with `Option`.  Note the loop
`for bb in &aabbs[0..]` runs over the *entire* slice, so the accumulator
starts from `merge_two_aabbs(aabbs[0], aabbs[0])`. -/
def merge_aabbs : List AABB → Option AABB
  | [] => none
  | a :: rest =>
    if rest.isEmpty then some a
    else some (List.foldl (fun acc bb => merge_two_aabbs acc bb) a (a :: rest))

/-- `AABB::contains`. -/
def contains (a : AABB) (p : Vec3) : Bool :=
  let v := Vec3.sub p a.center
  decide (|v.x| ≤ a.extents.x) && decide (|v.y| ≤ a.extents.y) &&
    decide (|v.z| ≤ a.extents.z)

/-- Modelled from the spec: the scalar "almost equal" tolerance predicate
`f32::almost_eq` (file `src/utils/f32.rs` is absent from the provided
sources) — true when the two scalars differ by less than a small fixed
tolerance. -/
def almostEq (a b : ℚ) : Bool := decide (|a - b| < 1 / 1000000)

/-- `AABB::face`: classify a boundary point by testing the six face planes
in the fixed source order Top, Bottom, Front, Back, Left, Right. -/
def face (a : AABB) (p : Vec3) : Option Face :=
  let mx := a.max
  let mn := a.min
  if almostEq (Vec3.dot Vec3.yAxis (Vec3.sub p mx)) 0 then some Face.Top
  else if almostEq (-(Vec3.dot Vec3.yAxis (Vec3.sub p mn))) 0 then some Face.Bottom
  else if almostEq (Vec3.dot Vec3.zAxis (Vec3.sub p mx)) 0 then some Face.Front
  else if almostEq (-(Vec3.dot Vec3.zAxis (Vec3.sub p mn))) 0 then some Face.Back
  else if almostEq (-(Vec3.dot Vec3.xAxis (Vec3.sub p mn))) 0 then some Face.Left
  else if almostEq (Vec3.dot Vec3.xAxis (Vec3.sub p mx)) 0 then some Face.Right
  else none

/-- `AABB::points`: the fixed six-corner sample returned by the source. -/
def points (a : AABB) : List Vec3 :=
  let mx := a.max
  let mn := a.min
  [ mn,
    ⟨mn.x, mn.y, mx.z⟩,
    ⟨mn.x, mx.y, mn.z⟩,
    ⟨mn.x, mx.y, mx.z⟩,
    ⟨mx.x, mn.y, mn.z⟩,
    mx ]

/-- `AABB::partition`.  The source panics when the box is infinite; the `ℚ`
model has no infinities, so every box here is finite and the function is
total (the infinite case is modelled by `AABBF`). -/
def partition (a : AABB) : Octants :=
  let center := a.center
  let mn := a.min
  let mx := a.max
  { tfl := new_min_max ⟨mn.x, center.y, center.z⟩ ⟨center.x, mx.y, mx.z⟩
    tfr := new_min_max center mx
    tbl := new_min_max ⟨mn.x, center.y, mn.z⟩ ⟨center.x, mx.y, center.z⟩
    tbr := new_min_max ⟨center.x, center.y, mn.z⟩ ⟨mx.x, mx.y, center.z⟩
    bfl := new_min_max ⟨mn.x, mn.y, center.z⟩ ⟨center.x, center.y, mx.z⟩
    bfr := new_min_max ⟨center.x, mn.y, center.z⟩ ⟨mx.x, center.y, mx.z⟩
    bbl := new_min_max mn center
    bbr := new_min_max ⟨center.x, mn.y, mn.z⟩ ⟨mx.x, center.y, center.z⟩ }

/-- The eight octants listed in the order of the `Octants` struct fields. -/
def octantsList (o : Octants) : List AABB :=
  [o.tfr, o.tfl, o.tbr, o.tbl, o.bfr, o.bfl, o.bbr, o.bbl]

/-- The extents-non-negativity invariant on a box (spec §3: data-model
invariant maintained by every constructor). -/
def extNonneg (a : AABB) : Prop :=
  0 ≤ a.extents.x ∧ 0 ≤ a.extents.y ∧ 0 ≤ a.extents.z

instance (a : AABB) : Decidable (extNonneg a) := by
  unfold extNonneg; infer_instance

/-- In the exact model the constructor assertion
`extents.x >= 0 && extents.y >= 0 && extents.z >= 0` always holds. -/
theorem new_min_max_extents_nonneg (mn mx : Vec3) :
    extNonneg (new_min_max mn mx) := by
  refine ⟨?_, ?_, ?_⟩ <;>
    simp [new_min_max, Vec3.sdiv, Vec3.sub, Vec3.pmax, Vec3.pmin, extNonneg] <;>
    cases le_total mn.x mx.x <;> cases le_total mn.y mx.y <;>
    cases le_total mn.z mx.z <;>
    simp [min_def, max_def, *] <;> linarith

theorem abs_center_iff (c e xx : ℚ) : |xx - c| ≤ e ↔ c - e ≤ xx ∧ xx ≤ c + e := by
  rw [abs_le]
  constructor <;> intro h <;> exact ⟨by linarith [h.1], by linarith [h.2]⟩

theorem half_width_iff (lo hi xx : ℚ) (h : lo ≤ hi) :
    |xx - (lo + hi) / 2| ≤ (Max.max lo hi - Min.min lo hi) / 2 ↔
      lo ≤ xx ∧ xx ≤ hi := by
  rw [max_eq_right h, min_eq_left h, abs_le]
  constructor <;> intro h1 <;> exact ⟨by linarith [h1.1], by linarith [h1.2]⟩

theorem contains_iff (a : AABB) (p : Vec3) :
    contains a p = true ↔
      |p.x - a.center.x| ≤ a.extents.x ∧ |p.y - a.center.y| ≤ a.extents.y ∧
        |p.z - a.center.z| ≤ a.extents.z := by
  simp [contains, Vec3.sub, Bool.and_eq_true, decide_eq_true_eq, and_assoc]

theorem contains_new_min_max (mn mx p : Vec3) (h : Vec3.cle mn mx) :
    contains (new_min_max mn mx) p = true ↔
      (mn.x ≤ p.x ∧ p.x ≤ mx.x) ∧ (mn.y ≤ p.y ∧ p.y ≤ mx.y) ∧
        (mn.z ≤ p.z ∧ p.z ≤ mx.z) := by
  rw [contains_iff]
  simp only [new_min_max, Vec3.midpoint, Vec3.sdiv, Vec3.sub, Vec3.pmax, Vec3.pmin]
  rw [half_width_iff _ _ _ h.1, half_width_iff _ _ _ h.2.1, half_width_iff _ _ _ h.2.2]

theorem min_new_min_max (mn mx : Vec3) (h : Vec3.cle mn mx) :
    (new_min_max mn mx).min = mn := by
  obtain ⟨h1, h2, h3⟩ := h
  simp only [new_min_max, min, Vec3.midpoint, Vec3.sdiv, Vec3.sub, Vec3.pmax, Vec3.pmin]
  ext <;> simp [max_eq_right, min_eq_left, h1, h2, h3] <;> ring

theorem max_new_min_max (mn mx : Vec3) (h : Vec3.cle mn mx) :
    (new_min_max mn mx).max = mx := by
  obtain ⟨h1, h2, h3⟩ := h
  simp only [new_min_max, max, Vec3.midpoint, Vec3.sdiv, Vec3.sub, Vec3.add, Vec3.pmax,
    Vec3.pmin]
  ext <;> simp [max_eq_right, min_eq_left, h1, h2, h3] <;> ring

theorem contains_iff_bounds (a : AABB) (p : Vec3) :
    contains a p = true ↔
      (a.min.x ≤ p.x ∧ p.x ≤ a.max.x) ∧ (a.min.y ≤ p.y ∧ p.y ≤ a.max.y) ∧
        (a.min.z ≤ p.z ∧ p.z ≤ a.max.z) := by
  rw [contains_iff]
  simp only [min, max, Vec3.sub, Vec3.add]
  rw [abs_center_iff, abs_center_iff, abs_center_iff]

theorem extents_new_min_max (mn mx : Vec3) (h : Vec3.cle mn mx) :
    (new_min_max mn mx).extents =
      ⟨(mx.x - mn.x) / 2, (mx.y - mn.y) / 2, (mx.z - mn.z) / 2⟩ := by
  obtain ⟨h1, h2, h3⟩ := h
  simp [new_min_max, Vec3.sdiv, Vec3.sub, Vec3.pmax, Vec3.pmin, max_eq_right,
    min_eq_left, h1, h2, h3]

/-- C2: for every pair of boxes `a`, `b` and every point `p`, if `a` or `b`
contains `p` then `merge_two_aabbs a b` contains `p`: the merged box
contains both inputs. -/
theorem merge_two_aabbs_contains (a b : AABB) (p : Vec3)
    (h : contains a p = true ∨ contains b p = true) :
    contains (merge_two_aabbs a b) p = true := by
  have hcle : Vec3.cle (Vec3.pmin a.min b.min) (Vec3.pmax a.max b.max) := by
    rcases h with h | h <;> rw [contains_iff_bounds] at h <;>
      obtain ⟨⟨h1, h2⟩, ⟨h3, h4⟩, ⟨h5, h6⟩⟩ := h <;>
      refine ⟨?_, ?_, ?_⟩ <;> simp only [Vec3.pmin, Vec3.pmax] <;>
      [ exact le_trans (le_trans (min_le_left _ _) (le_trans h1 h2)) (le_max_left _ _);
        exact le_trans (le_trans (min_le_left _ _) (le_trans h3 h4)) (le_max_left _ _);
        exact le_trans (le_trans (min_le_left _ _) (le_trans h5 h6)) (le_max_left _ _);
        exact le_trans (le_trans (min_le_right _ _) (le_trans h1 h2)) (le_max_right _ _);
        exact le_trans (le_trans (min_le_right _ _) (le_trans h3 h4)) (le_max_right _ _);
        exact le_trans (le_trans (min_le_right _ _) (le_trans h5 h6)) (le_max_right _ _) ]
  rw [merge_two_aabbs, contains_new_min_max _ _ _ hcle]
  rcases h with h | h <;> rw [contains_iff_bounds] at h <;>
    obtain ⟨⟨h1, h2⟩, ⟨h3, h4⟩, ⟨h5, h6⟩⟩ := h <;>
    refine ⟨⟨?_, ?_⟩, ⟨?_, ?_⟩, ⟨?_, ?_⟩⟩ <;> simp only [Vec3.pmin, Vec3.pmax] <;>
    [ exact le_trans (min_le_left _ _) h1; exact le_trans h2 (le_max_left _ _);
      exact le_trans (min_le_left _ _) h3; exact le_trans h4 (le_max_left _ _);
      exact le_trans (min_le_left _ _) h5; exact le_trans h6 (le_max_left _ _);
      exact le_trans (min_le_right _ _) h1; exact le_trans h2 (le_max_right _ _);
      exact le_trans (min_le_right _ _) h3; exact le_trans h4 (le_max_right _ _);
      exact le_trans (min_le_right _ _) h5; exact le_trans h6 (le_max_right _ _) ]

/-- C2 witness: a concrete instance of `merge_two_aabbs_contains`. -/
theorem merge_two_aabbs_contains_witness :
    (contains ⟨⟨0, 0, 0⟩, ⟨1, 1, 1⟩⟩ ⟨1, 0, 0⟩ = true ∨
      contains ⟨⟨4, 0, 0⟩, ⟨1, 1, 1⟩⟩ ⟨1, 0, 0⟩ = true) ∧
    contains (merge_two_aabbs ⟨⟨0, 0, 0⟩, ⟨1, 1, 1⟩⟩ ⟨⟨4, 0, 0⟩, ⟨1, 1, 1⟩⟩)
      ⟨1, 0, 0⟩ = true :=
  ⟨Or.inl (by norm_num [contains, Vec3.sub, abs_le]),
    merge_two_aabbs_contains ⟨⟨0, 0, 0⟩, ⟨1, 1, 1⟩⟩ ⟨⟨4, 0, 0⟩, ⟨1, 1, 1⟩⟩ ⟨1, 0, 0⟩
      (Or.inl (by norm_num [contains, Vec3.sub, abs_le]))⟩

/-- C5: `contains` is closed/inclusive: it holds iff on every axis the
absolute offset from the center is at most the extent, and every boundary
corner `center ± extents` (componentwise signs) is contained. -/
theorem contains_inclusive (a : AABB) (he : extNonneg a) :
    (∀ p : Vec3, contains a p = true ↔
      |p.x - a.center.x| ≤ a.extents.x ∧ |p.y - a.center.y| ≤ a.extents.y ∧
        |p.z - a.center.z| ≤ a.extents.z) ∧
    (∀ sx sy sz : ℚ, (sx = 1 ∨ sx = -1) → (sy = 1 ∨ sy = -1) → (sz = 1 ∨ sz = -1) →
      contains a ⟨a.center.x + sx * a.extents.x, a.center.y + sy * a.extents.y,
        a.center.z + sz * a.extents.z⟩ = true) := by
  have key : ∀ s e c : ℚ, (s = 1 ∨ s = -1) → 0 ≤ e → |c + s * e - c| ≤ e := by
    intro s e c hs hE
    have h1 : |s| = 1 := by rcases hs with rfl | rfl <;> norm_num
    rw [show c + s * e - c = s * e from by ring, abs_mul, h1, one_mul,
      abs_of_nonneg hE]
  refine ⟨fun p => contains_iff a p, fun sx sy sz hx hy hz => ?_⟩
  rw [contains_iff]
  exact ⟨key sx _ _ hx he.1, key sy _ _ hy he.2.1, key sz _ _ hz he.2.2⟩

/-- C5 witness: a concrete instance of `contains_inclusive`. -/
theorem contains_inclusive_witness :
    extNonneg ⟨⟨0, 0, 0⟩, ⟨1, 2, 3⟩⟩ ∧
    contains ⟨⟨0, 0, 0⟩, ⟨1, 2, 3⟩⟩ ⟨(0 : ℚ) + 1 * 1, (0 : ℚ) + 1 * 2, (0 : ℚ) + (-1) * 3⟩
      = true :=
  ⟨⟨by norm_num, by norm_num, by norm_num⟩,
    (contains_inclusive ⟨⟨0, 0, 0⟩, ⟨1, 2, 3⟩⟩ ⟨by norm_num, by norm_num, by norm_num⟩).2
      1 1 (-1) (Or.inl rfl) (Or.inl rfl) (Or.inr rfl)⟩

set_option maxHeartbeats 2000000 in
/-- C1: for every finite box `a` (every box of the exact model is finite)
satisfying the extents invariant, `partition a` returns eight octants that
each have half the extent of `a` along every axis, whose union as a point
set equals `a` (no gaps; two distinct octants overlap only on the shared
boundary planes through the center), and `bbl.min = a.min`,
`tfr.max = a.max`. -/
theorem partition_tiles (a : AABB) (he : extNonneg a) :
    (∀ o ∈ octantsList (partition a),
      o.extents = ⟨a.extents.x / 2, a.extents.y / 2, a.extents.z / 2⟩) ∧
    (∀ p : Vec3, contains a p = true ↔
      ∃ o ∈ octantsList (partition a), contains o p = true) ∧
    (∀ p : Vec3, ∀ o1 ∈ octantsList (partition a), ∀ o2 ∈ octantsList (partition a),
      o1 ≠ o2 → contains o1 p = true → contains o2 p = true →
      p.x = a.center.x ∨ p.y = a.center.y ∨ p.z = a.center.z) ∧
    (partition a).bbl.min = a.min ∧ (partition a).tfr.max = a.max := by
  obtain ⟨he1, he2, he3⟩ := he
  have K_tfr : Vec3.cle a.center a.max := by
    refine ⟨?_, ?_, ?_⟩ <;> simp [max, Vec3.add] <;> linarith
  have K_tfl : Vec3.cle ⟨a.min.x, a.center.y, a.center.z⟩ ⟨a.center.x, a.max.y, a.max.z⟩ := by
    refine ⟨?_, ?_, ?_⟩ <;> simp [min, max, Vec3.sub, Vec3.add] <;> linarith
  have K_tbr : Vec3.cle ⟨a.center.x, a.center.y, a.min.z⟩ ⟨a.max.x, a.max.y, a.center.z⟩ := by
    refine ⟨?_, ?_, ?_⟩ <;> simp [min, max, Vec3.sub, Vec3.add] <;> linarith
  have K_tbl : Vec3.cle ⟨a.min.x, a.center.y, a.min.z⟩ ⟨a.center.x, a.max.y, a.center.z⟩ := by
    refine ⟨?_, ?_, ?_⟩ <;> simp [min, max, Vec3.sub, Vec3.add] <;> linarith
  have K_bfr : Vec3.cle ⟨a.center.x, a.min.y, a.center.z⟩ ⟨a.max.x, a.center.y, a.max.z⟩ := by
    refine ⟨?_, ?_, ?_⟩ <;> simp [min, max, Vec3.sub, Vec3.add] <;> linarith
  have K_bfl : Vec3.cle ⟨a.min.x, a.min.y, a.center.z⟩ ⟨a.center.x, a.center.y, a.max.z⟩ := by
    refine ⟨?_, ?_, ?_⟩ <;> simp [min, max, Vec3.sub, Vec3.add] <;> linarith
  have K_bbr : Vec3.cle ⟨a.center.x, a.min.y, a.min.z⟩ ⟨a.max.x, a.center.y, a.center.z⟩ := by
    refine ⟨?_, ?_, ?_⟩ <;> simp [min, max, Vec3.sub, Vec3.add] <;> linarith
  have K_bbl : Vec3.cle a.min a.center := by
    refine ⟨?_, ?_, ?_⟩ <;> simp [min, Vec3.sub] <;> linarith
  have hTFR : ∀ q : Vec3, contains (partition a).tfr q = true ↔
      (a.center.x ≤ q.x ∧ q.x ≤ a.center.x + a.extents.x) ∧
        (a.center.y ≤ q.y ∧ q.y ≤ a.center.y + a.extents.y) ∧
        (a.center.z ≤ q.z ∧ q.z ≤ a.center.z + a.extents.z) := by
    intro q
    rw [show (partition a).tfr = new_min_max a.center a.max from rfl,
      contains_new_min_max _ _ _ K_tfr]
    simp [max, Vec3.add]
  have hTFL : ∀ q : Vec3, contains (partition a).tfl q = true ↔
      (a.center.x - a.extents.x ≤ q.x ∧ q.x ≤ a.center.x) ∧
        (a.center.y ≤ q.y ∧ q.y ≤ a.center.y + a.extents.y) ∧
        (a.center.z ≤ q.z ∧ q.z ≤ a.center.z + a.extents.z) := by
    intro q
    rw [show (partition a).tfl =
        new_min_max ⟨a.min.x, a.center.y, a.center.z⟩ ⟨a.center.x, a.max.y, a.max.z⟩
        from rfl, contains_new_min_max _ _ _ K_tfl]
    simp [min, max, Vec3.sub, Vec3.add]
  have hTBR : ∀ q : Vec3, contains (partition a).tbr q = true ↔
      (a.center.x ≤ q.x ∧ q.x ≤ a.center.x + a.extents.x) ∧
        (a.center.y ≤ q.y ∧ q.y ≤ a.center.y + a.extents.y) ∧
        (a.center.z - a.extents.z ≤ q.z ∧ q.z ≤ a.center.z) := by
    intro q
    rw [show (partition a).tbr =
        new_min_max ⟨a.center.x, a.center.y, a.min.z⟩ ⟨a.max.x, a.max.y, a.center.z⟩
        from rfl, contains_new_min_max _ _ _ K_tbr]
    simp [min, max, Vec3.sub, Vec3.add]
  have hTBL : ∀ q : Vec3, contains (partition a).tbl q = true ↔
      (a.center.x - a.extents.x ≤ q.x ∧ q.x ≤ a.center.x) ∧
        (a.center.y ≤ q.y ∧ q.y ≤ a.center.y + a.extents.y) ∧
        (a.center.z - a.extents.z ≤ q.z ∧ q.z ≤ a.center.z) := by
    intro q
    rw [show (partition a).tbl =
        new_min_max ⟨a.min.x, a.center.y, a.min.z⟩ ⟨a.center.x, a.max.y, a.center.z⟩
        from rfl, contains_new_min_max _ _ _ K_tbl]
    simp [min, max, Vec3.sub, Vec3.add]
  have hBFR : ∀ q : Vec3, contains (partition a).bfr q = true ↔
      (a.center.x ≤ q.x ∧ q.x ≤ a.center.x + a.extents.x) ∧
        (a.center.y - a.extents.y ≤ q.y ∧ q.y ≤ a.center.y) ∧
        (a.center.z ≤ q.z ∧ q.z ≤ a.center.z + a.extents.z) := by
    intro q
    rw [show (partition a).bfr =
        new_min_max ⟨a.center.x, a.min.y, a.center.z⟩ ⟨a.max.x, a.center.y, a.max.z⟩
        from rfl, contains_new_min_max _ _ _ K_bfr]
    simp [min, max, Vec3.sub, Vec3.add]
  have hBFL : ∀ q : Vec3, contains (partition a).bfl q = true ↔
      (a.center.x - a.extents.x ≤ q.x ∧ q.x ≤ a.center.x) ∧
        (a.center.y - a.extents.y ≤ q.y ∧ q.y ≤ a.center.y) ∧
        (a.center.z ≤ q.z ∧ q.z ≤ a.center.z + a.extents.z) := by
    intro q
    rw [show (partition a).bfl =
        new_min_max ⟨a.min.x, a.min.y, a.center.z⟩ ⟨a.center.x, a.center.y, a.max.z⟩
        from rfl, contains_new_min_max _ _ _ K_bfl]
    simp [min, max, Vec3.sub, Vec3.add]
  have hBBR : ∀ q : Vec3, contains (partition a).bbr q = true ↔
      (a.center.x ≤ q.x ∧ q.x ≤ a.center.x + a.extents.x) ∧
        (a.center.y - a.extents.y ≤ q.y ∧ q.y ≤ a.center.y) ∧
        (a.center.z - a.extents.z ≤ q.z ∧ q.z ≤ a.center.z) := by
    intro q
    rw [show (partition a).bbr =
        new_min_max ⟨a.center.x, a.min.y, a.min.z⟩ ⟨a.max.x, a.center.y, a.center.z⟩
        from rfl, contains_new_min_max _ _ _ K_bbr]
    simp [min, max, Vec3.sub, Vec3.add]
  have hBBL : ∀ q : Vec3, contains (partition a).bbl q = true ↔
      (a.center.x - a.extents.x ≤ q.x ∧ q.x ≤ a.center.x) ∧
        (a.center.y - a.extents.y ≤ q.y ∧ q.y ≤ a.center.y) ∧
        (a.center.z - a.extents.z ≤ q.z ∧ q.z ≤ a.center.z) := by
    intro q
    rw [show (partition a).bbl = new_min_max a.min a.center from rfl,
      contains_new_min_max _ _ _ K_bbl]
    simp [min, Vec3.sub]
  refine ⟨?_, ?_, ?_, ?_, ?_⟩
  · intro o ho
    simp only [octantsList] at ho
    fin_cases ho <;>
      [ rw [show (partition a).tfr = new_min_max a.center a.max from rfl,
          extents_new_min_max _ _ K_tfr];
        rw [show (partition a).tfl =
            new_min_max ⟨a.min.x, a.center.y, a.center.z⟩ ⟨a.center.x, a.max.y, a.max.z⟩
            from rfl, extents_new_min_max _ _ K_tfl];
        rw [show (partition a).tbr =
            new_min_max ⟨a.center.x, a.center.y, a.min.z⟩ ⟨a.max.x, a.max.y, a.center.z⟩
            from rfl, extents_new_min_max _ _ K_tbr];
        rw [show (partition a).tbl =
            new_min_max ⟨a.min.x, a.center.y, a.min.z⟩ ⟨a.center.x, a.max.y, a.center.z⟩
            from rfl, extents_new_min_max _ _ K_tbl];
        rw [show (partition a).bfr =
            new_min_max ⟨a.center.x, a.min.y, a.center.z⟩ ⟨a.max.x, a.center.y, a.max.z⟩
            from rfl, extents_new_min_max _ _ K_bfr];
        rw [show (partition a).bfl =
            new_min_max ⟨a.min.x, a.min.y, a.center.z⟩ ⟨a.center.x, a.center.y, a.max.z⟩
            from rfl, extents_new_min_max _ _ K_bfl];
        rw [show (partition a).bbr =
            new_min_max ⟨a.center.x, a.min.y, a.min.z⟩ ⟨a.max.x, a.center.y, a.center.z⟩
            from rfl, extents_new_min_max _ _ K_bbr];
        rw [show (partition a).bbl = new_min_max a.min a.center from rfl,
          extents_new_min_max _ _ K_bbl] ] <;>
      ext <;> simp [min, max, Vec3.sub, Vec3.add]
  · intro p
    rw [contains_iff_bounds]
    simp only [octantsList, List.mem_cons, List.not_mem_nil, or_false,
      exists_eq_or_imp, exists_eq_left]
    rw [hTFR p, hTFL p, hTBR p, hTBL p, hBFR p, hBFL p, hBBR p, hBBL p]
    simp only [min, max, Vec3.sub, Vec3.add]
    constructor
    · rintro ⟨⟨hx1, hx2⟩, ⟨hy1, hy2⟩, ⟨hz1, hz2⟩⟩
      rcases le_total p.x a.center.x with hx | hx
      · rcases le_total p.y a.center.y with hy | hy
        · rcases le_total p.z a.center.z with hz | hz
          · exact Or.inr (Or.inr (Or.inr (Or.inr (Or.inr (Or.inr (Or.inr
              ⟨⟨hx1, hx⟩, ⟨hy1, hy⟩, ⟨hz1, hz⟩⟩))))))
          · exact Or.inr (Or.inr (Or.inr (Or.inr (Or.inr (Or.inl
              ⟨⟨hx1, hx⟩, ⟨hy1, hy⟩, ⟨hz, hz2⟩⟩)))))
        · rcases le_total p.z a.center.z with hz | hz
          · exact Or.inr (Or.inr (Or.inr (Or.inl ⟨⟨hx1, hx⟩, ⟨hy, hy2⟩, ⟨hz1, hz⟩⟩)))
          · exact Or.inr (Or.inl ⟨⟨hx1, hx⟩, ⟨hy, hy2⟩, ⟨hz, hz2⟩⟩)
      · rcases le_total p.y a.center.y with hy | hy
        · rcases le_total p.z a.center.z with hz | hz
          · exact Or.inr (Or.inr (Or.inr (Or.inr (Or.inr (Or.inr (Or.inl
              ⟨⟨hx, hx2⟩, ⟨hy1, hy⟩, ⟨hz1, hz⟩⟩))))))
          · exact Or.inr (Or.inr (Or.inr (Or.inr (Or.inl
              ⟨⟨hx, hx2⟩, ⟨hy1, hy⟩, ⟨hz, hz2⟩⟩))))
        · rcases le_total p.z a.center.z with hz | hz
          · exact Or.inr (Or.inr (Or.inl ⟨⟨hx, hx2⟩, ⟨hy, hy2⟩, ⟨hz1, hz⟩⟩))
          · exact Or.inl ⟨⟨hx, hx2⟩, ⟨hy, hy2⟩, ⟨hz, hz2⟩⟩
    · rintro (h | h | h | h | h | h | h | h) <;>
        obtain ⟨⟨h1, h2⟩, ⟨h3, h4⟩, ⟨h5, h6⟩⟩ := h <;>
        refine ⟨⟨?_, ?_⟩, ⟨?_, ?_⟩, ⟨?_, ?_⟩⟩ <;> linarith
  · intro p o1 h1 o2 h2 hne hc1 hc2
    simp only [octantsList] at h1 h2
    fin_cases h1 <;> fin_cases h2 <;>
      first
        | exact absurd rfl hne
        | (simp only [hTFR p, hTFL p, hTBR p, hTBL p, hBFR p, hBFL p, hBBR p, hBBL p]
            at hc1 hc2
           obtain ⟨⟨a1, a2⟩, ⟨b1, b2⟩, ⟨d1, d2⟩⟩ := hc1
           obtain ⟨⟨a3, a4⟩, ⟨b3, b4⟩, ⟨d3, d4⟩⟩ := hc2
           first
             | exact Or.inl (by linarith)
             | exact Or.inr (Or.inl (by linarith))
             | exact Or.inr (Or.inr (by linarith)))
  · rw [show (partition a).bbl = new_min_max a.min a.center from rfl,
      min_new_min_max _ _ K_bbl]
  · rw [show (partition a).tfr = new_min_max a.center a.max from rfl,
      max_new_min_max _ _ K_tfr]

/-- The face-plane membership test used by `face`, one test per face:
`almost_eq` on the signed distance along that face's outward normal. -/
def facePlaneTest (a : AABB) (p : Vec3) (f : Face) : Bool :=
  match f with
  | Face.Top => almostEq (Vec3.dot Vec3.yAxis (Vec3.sub p a.max)) 0
  | Face.Bottom => almostEq (-(Vec3.dot Vec3.yAxis (Vec3.sub p a.min))) 0
  | Face.Front => almostEq (Vec3.dot Vec3.zAxis (Vec3.sub p a.max)) 0
  | Face.Back => almostEq (-(Vec3.dot Vec3.zAxis (Vec3.sub p a.min))) 0
  | Face.Left => almostEq (-(Vec3.dot Vec3.xAxis (Vec3.sub p a.min))) 0
  | Face.Right => almostEq (Vec3.dot Vec3.xAxis (Vec3.sub p a.max)) 0

/-- C6: `face` tests the six face planes in the fixed order Top, Bottom,
Front, Back, Left, Right with the almost-equal tolerance on the signed
distance along each outward normal, returning the first match and `none`
when no plane matches (`List.find?` over that order); on the box
`[-1,-1,-1]..[1,1,1]` the six sample points classify as Top, Bottom, Left,
Right, Front, Back. -/
theorem face_first_match :
    (∀ (a : AABB) (p : Vec3),
      face a p = [Face.Top, Face.Bottom, Face.Front, Face.Back, Face.Left,
        Face.Right].find? (facePlaneTest a p)) ∧
    face ⟨⟨0, 0, 0⟩, ⟨1, 1, 1⟩⟩ ⟨0, 1, 0⟩ = some Face.Top ∧
    face ⟨⟨0, 0, 0⟩, ⟨1, 1, 1⟩⟩ ⟨0, -1, 0⟩ = some Face.Bottom ∧
    face ⟨⟨0, 0, 0⟩, ⟨1, 1, 1⟩⟩ ⟨-1, 1 / 2, 1 / 2⟩ = some Face.Left ∧
    face ⟨⟨0, 0, 0⟩, ⟨1, 1, 1⟩⟩ ⟨1, 1 / 2, 1 / 2⟩ = some Face.Right ∧
    face ⟨⟨0, 0, 0⟩, ⟨1, 1, 1⟩⟩ ⟨1 / 2, 1 / 2, 1⟩ = some Face.Front ∧
    face ⟨⟨0, 0, 0⟩, ⟨1, 1, 1⟩⟩ ⟨-(1 / 2), 1 / 2, -1⟩ = some Face.Back := by
  refine ⟨fun a p => ?_, ?_, ?_, ?_, ?_, ?_, ?_⟩
  · simp only [face]
    cases hT : almostEq (Vec3.dot Vec3.yAxis (Vec3.sub p a.max)) 0 <;>
      cases hB : almostEq (-(Vec3.dot Vec3.yAxis (Vec3.sub p a.min))) 0 <;>
      cases hF : almostEq (Vec3.dot Vec3.zAxis (Vec3.sub p a.max)) 0 <;>
      cases hK : almostEq (-(Vec3.dot Vec3.zAxis (Vec3.sub p a.min))) 0 <;>
      cases hL : almostEq (-(Vec3.dot Vec3.xAxis (Vec3.sub p a.min))) 0 <;>
      cases hR : almostEq (Vec3.dot Vec3.xAxis (Vec3.sub p a.max)) 0 <;>
      simp [List.find?, facePlaneTest, hT, hB, hF, hK, hL, hR]
  all_goals
    norm_num [face, almostEq, Vec3.dot, Vec3.sub, Vec3.yAxis, min, max, Vec3.add,
      Vec3.xAxis, Vec3.zAxis, abs_lt]

theorem merge_two_self (a : AABB) (he : extNonneg a) : merge_two_aabbs a a = a := by
  obtain ⟨⟨cx, cy, cz⟩, ⟨ex, ey, ez⟩⟩ := a
  obtain ⟨he1, he2, he3⟩ := he
  simp only [merge_two_aabbs, new_min_max, min, max, Vec3.sub, Vec3.add, Vec3.pmin,
    Vec3.pmax, Vec3.midpoint, Vec3.sdiv, min_self, max_self]
  rw [max_eq_right (by linarith : cx - ex ≤ cx + ex),
    min_eq_left (by linarith : cx - ex ≤ cx + ex),
    max_eq_right (by linarith : cy - ey ≤ cy + ey),
    min_eq_left (by linarith : cy - ey ≤ cy + ey),
    max_eq_right (by linarith : cz - ez ≤ cz + ez),
    min_eq_left (by linarith : cz - ez ≤ cz + ez)]
  simp only [AABB.mk.injEq, Vec3.mk.injEq]
  refine ⟨⟨?_, ?_, ?_⟩, ?_, ?_, ?_⟩ <;> linarith

/-- C7: for a non-empty list whose head satisfies the extents invariant,
`merge_aabbs` equals the left fold of the pairwise merge over the list,
and a singleton list is returned unchanged.  (The source loop starts the
fold from `merge(head, head)`, which equals `head` under the invariant.) -/
theorem merge_aabbs_foldl (a : AABB) (rest : List AABB) (he : extNonneg a) :
    merge_aabbs (a :: rest) = some (List.foldl merge_two_aabbs a rest) ∧
    merge_aabbs [a] = some a := by
  constructor
  · cases rest with
    | nil => simp [merge_aabbs]
    | cons b t =>
      simp only [merge_aabbs, List.isEmpty_cons, if_neg]
      rw [List.foldl_cons, merge_two_self a he]
      simp
  · simp [merge_aabbs]

/-- C7 witness: a concrete instance of `merge_aabbs_foldl`. -/
theorem merge_aabbs_foldl_witness :
    extNonneg ⟨⟨0, 0, 0⟩, ⟨1, 1, 1⟩⟩ ∧
    merge_aabbs [⟨⟨0, 0, 0⟩, ⟨1, 1, 1⟩⟩, ⟨⟨3, 0, 0⟩, ⟨1, 1, 1⟩⟩] =
      some (List.foldl merge_two_aabbs ⟨⟨0, 0, 0⟩, ⟨1, 1, 1⟩⟩
        [⟨⟨3, 0, 0⟩, ⟨1, 1, 1⟩⟩]) :=
  ⟨⟨by norm_num, by norm_num, by norm_num⟩,
    (merge_aabbs_foldl ⟨⟨0, 0, 0⟩, ⟨1, 1, 1⟩⟩ [⟨⟨3, 0, 0⟩, ⟨1, 1, 1⟩⟩]
      ⟨by norm_num, by norm_num, by norm_num⟩).1⟩

/-- C8 counterexample: on the box with `min = (-1,-1,-1)` and
`max = (1,1,1)`, `points()` returns the corner `(1,1,1)` (`max`, which
substitutes all three max-coordinates into `min`), so the returned list is
not made of the min corner plus five corners with only one or two
max-coordinate substitutions. -/
theorem points_not_one_or_two_subs :
    ¬ (∀ p ∈ points ⟨⟨0, 0, 0⟩, ⟨1, 1, 1⟩⟩,
        p = AABB.min ⟨⟨0, 0, 0⟩, ⟨1, 1, 1⟩⟩ ∨
        p ∈ ([⟨1, -1, -1⟩, ⟨-1, 1, -1⟩, ⟨-1, -1, 1⟩, ⟨1, 1, -1⟩, ⟨1, -1, 1⟩,
          ⟨-1, 1, 1⟩] : List Vec3)) := by
  intro h
  have hm : (⟨1, 1, 1⟩ : Vec3) ∈ points ⟨⟨0, 0, 0⟩, ⟨1, 1, 1⟩⟩ := by
    norm_num [points, min, max, Vec3.sub, Vec3.add]
  rcases h ⟨1, 1, 1⟩ hm with h1 | h1
  · rw [Vec3.ext_iff] at h1
    norm_num [min, Vec3.sub] at h1
  · norm_num [Vec3.ext_iff] at h1

/-- C8 (amended): `points()` returns exactly six corners — the min corner,
the max corner, and four corners substituting one or two max-coordinates
into min — and, for a box with positive extents, it omits the corners
`(max.x, min.y, max.z)` and `(max.x, max.y, min.z)`, so it never returns
all eight corners. -/
theorem points_six_corners (a : AABB) :
    points a = [a.min, ⟨a.min.x, a.min.y, a.max.z⟩, ⟨a.min.x, a.max.y, a.min.z⟩,
      ⟨a.min.x, a.max.y, a.max.z⟩, ⟨a.max.x, a.min.y, a.min.z⟩, a.max] ∧
    (points a).length = 6 ∧
    (0 < a.extents.x → 0 < a.extents.y → 0 < a.extents.z →
      (⟨a.max.x, a.min.y, a.max.z⟩ : Vec3) ∉ points a ∧
      (⟨a.max.x, a.max.y, a.min.z⟩ : Vec3) ∉ points a) := by
  refine ⟨rfl, rfl, fun hx hy hz => ⟨?_, ?_⟩⟩ <;>
    · intro hmem
      simp only [points, List.mem_cons, List.not_mem_nil, or_false, Vec3.ext_iff,
        min, max, Vec3.sub, Vec3.add] at hmem
      rcases hmem with ⟨h1, h2, h3⟩ | ⟨h1, h2, h3⟩ | ⟨h1, h2, h3⟩ | ⟨h1, h2, h3⟩ |
        ⟨h1, h2, h3⟩ | ⟨h1, h2, h3⟩ <;> linarith

/-- C8 witness: a concrete instance of `points_six_corners`. -/
theorem points_six_corners_witness :
    (0 : ℚ) < 1 ∧
    ((⟨(AABB.max ⟨⟨0, 0, 0⟩, ⟨1, 1, 1⟩⟩).x, (AABB.min ⟨⟨0, 0, 0⟩, ⟨1, 1, 1⟩⟩).y,
        (AABB.max ⟨⟨0, 0, 0⟩, ⟨1, 1, 1⟩⟩).z⟩ : Vec3) ∉
      points ⟨⟨0, 0, 0⟩, ⟨1, 1, 1⟩⟩) :=
  ⟨by norm_num,
    ((points_six_corners ⟨⟨0, 0, 0⟩, ⟨1, 1, 1⟩⟩).2.2 (by norm_num) (by norm_num)
      (by norm_num)).1⟩

/-- C1 witness: a concrete instance of `partition_tiles`. -/
theorem partition_tiles_witness :
    extNonneg ⟨⟨0, 0, 0⟩, ⟨2, 2, 2⟩⟩ ∧
    (∀ o ∈ octantsList (partition ⟨⟨0, 0, 0⟩, ⟨2, 2, 2⟩⟩),
      o.extents = ⟨(2 : ℚ) / 2, (2 : ℚ) / 2, (2 : ℚ) / 2⟩) ∧
    (partition ⟨⟨0, 0, 0⟩, ⟨2, 2, 2⟩⟩).bbl.min = AABB.min ⟨⟨0, 0, 0⟩, ⟨2, 2, 2⟩⟩ :=
  ⟨⟨by norm_num, by norm_num, by norm_num⟩,
    (partition_tiles ⟨⟨0, 0, 0⟩, ⟨2, 2, 2⟩⟩ ⟨by norm_num, by norm_num, by norm_num⟩).1,
    (partition_tiles ⟨⟨0, 0, 0⟩, ⟨2, 2, 2⟩⟩
      ⟨by norm_num, by norm_num, by norm_num⟩).2.2.2.1⟩

end AABB

/-!
IEEE-special-value model of the `f32` scalars: an extended value is either a
finite rational, `+∞`, `-∞`, or NaN.  Arithmetic on finite values is exact;
the special values follow the IEEE-754 rules used by Rust `f32` operations
(`∞ + (-∞) = NaN`, NaN propagates through arithmetic, every ordered
comparison involving NaN is false, `f32::min`/`f32::max` return the other
operand when one argument is NaN).  This model is used for the claims about
`AABB::new_infinite` and the `new_min_max` assertion, where the infinities
and NaN are the point of the claim. -/
inductive FVal where
  | fin (q : ℚ)
  | pinf
  | ninf
  | nan
deriving DecidableEq, Repr

namespace FVal

def neg : FVal → FVal
  | fin q => fin (-q)
  | pinf => ninf
  | ninf => pinf
  | nan => nan

def add : FVal → FVal → FVal
  | nan, _ => nan
  | _, nan => nan
  | fin a, fin b => fin (a + b)
  | fin _, pinf => pinf
  | fin _, ninf => ninf
  | pinf, fin _ => pinf
  | ninf, fin _ => ninf
  | pinf, pinf => pinf
  | ninf, ninf => ninf
  | pinf, ninf => nan
  | ninf, pinf => nan

def sub (a b : FVal) : FVal := a.add b.neg

/-- Division by the exact constant `2.0`. -/
def half : FVal → FVal
  | fin q => fin (q / 2)
  | pinf => pinf
  | ninf => ninf
  | nan => nan

def fabs : FVal → FVal
  | fin q => fin |q|
  | pinf => pinf
  | ninf => pinf
  | nan => nan

/-- IEEE `<=`: false whenever either operand is NaN. -/
def fle : FVal → FVal → Bool
  | nan, _ => false
  | _, nan => false
  | fin a, fin b => decide (a ≤ b)
  | ninf, _ => true
  | _, pinf => true
  | pinf, fin _ => false
  | pinf, ninf => false
  | fin _, ninf => false

/-- IEEE `>=` as used by `assert!(extents.x >= 0.0)`: false on NaN. -/
def fge (a b : FVal) : Bool := fle b a

/-- Rust `f32::min`: returns the other operand when one is NaN. -/
def fmin (a b : FVal) : FVal :=
  if a = nan then b else if b = nan then a else if fle a b then a else b

/-- Rust `f32::max`. -/
def fmax (a b : FVal) : FVal :=
  if a = nan then b else if b = nan then a else if fle a b then b else a

/-- `f32::is_infinite`. -/
def isInfinite : FVal → Bool
  | pinf => true
  | ninf => true
  | _ => false

def isFinite : FVal → Bool
  | fin _ => true
  | _ => false

theorem isFinite_iff (v : FVal) : v.isFinite = true ↔ ∃ q : ℚ, v = fin q := by
  cases v <;> simp [isFinite]

theorem fmin_fin (a b : ℚ) : fmin (fin a) (fin b) = fin (Min.min a b) := by
  by_cases h : a ≤ b
  · simp [fmin, fle, h, min_eq_left h]
  · have h2 : b ≤ a := le_of_not_le h
    simp [fmin, fle, h, min_eq_right h2]

theorem fmax_fin (a b : ℚ) : fmax (fin a) (fin b) = fin (Max.max a b) := by
  by_cases h : a ≤ b
  · simp [fmax, fle, h, max_eq_right h]
  · have h2 : b ≤ a := le_of_not_le h
    simp [fmax, fle, h, max_eq_left h2]

theorem sub_fin (a b : ℚ) : sub (fin a) (fin b) = fin (a - b) := by
  simp [sub, add, neg, sub_eq_add_neg]

end FVal

/-- A 3-vector of extended `f32` values. -/
structure Vec3F where
  x : FVal
  y : FVal
  z : FVal
deriving DecidableEq, Repr

namespace Vec3F

def subF (a b : Vec3F) : Vec3F := ⟨a.x.sub b.x, a.y.sub b.y, a.z.sub b.z⟩

/-- Modelled from the spec: `point3f::midpoint` on extended values —
componentwise average `(a + b) / 2`. -/
def midpointF (a b : Vec3F) : Vec3F :=
  ⟨(a.x.add b.x).half, (a.y.add b.y).half, (a.z.add b.z).half⟩

/-- Modelled from the spec: `point3f::min` — componentwise `f32::min`. -/
def pminF (a b : Vec3F) : Vec3F :=
  ⟨FVal.fmin a.x b.x, FVal.fmin a.y b.y, FVal.fmin a.z b.z⟩

/-- Modelled from the spec: `point3f::max` — componentwise `f32::max`. -/
def pmaxF (a b : Vec3F) : Vec3F :=
  ⟨FVal.fmax a.x b.x, FVal.fmax a.y b.y, FVal.fmax a.z b.z⟩

/-- All three coordinates are finite (no NaN, no infinity). -/
def finite (v : Vec3F) : Prop :=
  v.x.isFinite = true ∧ v.y.isFinite = true ∧ v.z.isFinite = true

end Vec3F

/-- The `AABB` struct over extended `f32` values. -/
structure AABBF where
  center : Vec3F
  extents : Vec3F
deriving DecidableEq, Repr

namespace AABBF

/-- `AABB::new_min_max` over extended values, including the
`assert!(extents.x >= 0.0 && extents.y >= 0.0 && extents.z >= 0.0)`:
a failed assertion (a panic) is modelled as `none`. -/
def new_min_max_f (mn mx : Vec3F) : Option AABBF :=
  let center := Vec3F.midpointF mn mx
  let extents := Vec3F.subF (Vec3F.pmaxF mn mx) (Vec3F.pminF mn mx)
  let extents := Vec3F.mk extents.x.half extents.y.half extents.z.half
  if FVal.fge extents.x (FVal.fin 0) && FVal.fge extents.y (FVal.fin 0) &&
      FVal.fge extents.z (FVal.fin 0) then
    some { center := center, extents := extents }
  else none

/-- `AABB::new_infinite`. -/
def new_infinite_f : Option AABBF :=
  new_min_max_f ⟨FVal.ninf, FVal.ninf, FVal.ninf⟩ ⟨FVal.pinf, FVal.pinf, FVal.pinf⟩

/-- `AABB::is_infinite`. -/
def is_infinite_f (a : AABBF) : Bool :=
  a.extents.x.isInfinite || a.extents.y.isInfinite || a.extents.z.isInfinite

/-- `AABB::contains` over extended values. -/
def containsF (a : AABBF) (p : Vec3F) : Bool :=
  let v := Vec3F.subF p a.center
  v.x.fabs.fle a.extents.x && v.y.fabs.fle a.extents.y && v.z.fabs.fle a.extents.z

/-- C9: `new_infinite()` succeeds (the assertion passes because `∞ >= 0`),
producing a box whose extents are all `+∞` — so `is_infinite()` is true —
but whose center coordinates are all NaN (the midpoint of `-∞` and `+∞`);
consequently `contains` returns false for every point. -/
theorem new_infinite_nan_center :
    new_infinite_f =
      some ⟨⟨FVal.nan, FVal.nan, FVal.nan⟩, ⟨FVal.pinf, FVal.pinf, FVal.pinf⟩⟩ ∧
    is_infinite_f ⟨⟨FVal.nan, FVal.nan, FVal.nan⟩, ⟨FVal.pinf, FVal.pinf, FVal.pinf⟩⟩
      = true ∧
    ∀ p : Vec3F,
      containsF ⟨⟨FVal.nan, FVal.nan, FVal.nan⟩, ⟨FVal.pinf, FVal.pinf, FVal.pinf⟩⟩ p
        = false := by
  refine ⟨rfl, rfl, fun p => ?_⟩
  obtain ⟨px, py, pz⟩ := p
  cases px <;> cases py <;> cases pz <;> rfl

/-- C10: on corner points whose coordinates are all finite, the
non-negativity assertion inside `new_min_max` always holds, so the
constructor never panics, regardless of argument order. -/
theorem new_min_max_f_finite_total (mn mx : Vec3F)
    (hmn : mn.finite) (hmx : mx.finite) :
    (new_min_max_f mn mx).isSome = true := by
  obtain ⟨ax, ay, az⟩ := mn
  obtain ⟨bx, b2, b3⟩ := mx
  obtain ⟨h1, h2, h3⟩ := hmn
  obtain ⟨h4, h5, h6⟩ := hmx
  obtain ⟨qa, rfl⟩ := (FVal.isFinite_iff _).1 h1
  obtain ⟨qb, rfl⟩ := (FVal.isFinite_iff _).1 h2
  obtain ⟨qc, rfl⟩ := (FVal.isFinite_iff _).1 h3
  obtain ⟨qd, rfl⟩ := (FVal.isFinite_iff _).1 h4
  obtain ⟨qe, rfl⟩ := (FVal.isFinite_iff _).1 h5
  obtain ⟨qf, rfl⟩ := (FVal.isFinite_iff _).1 h6
  have c1 : (0 : ℚ) ≤ (Max.max qa qd - Min.min qa qd) / 2 :=
    div_nonneg (sub_nonneg.2 min_le_max) (by norm_num)
  have c2 : (0 : ℚ) ≤ (Max.max qb qe - Min.min qb qe) / 2 :=
    div_nonneg (sub_nonneg.2 min_le_max) (by norm_num)
  have c3 : (0 : ℚ) ≤ (Max.max qc qf - Min.min qc qf) / 2 :=
    div_nonneg (sub_nonneg.2 min_le_max) (by norm_num)
  simp [new_min_max_f, Vec3F.pminF, Vec3F.pmaxF, Vec3F.subF, Vec3F.midpointF,
    FVal.fmin_fin, FVal.fmax_fin, FVal.sub_fin, FVal.half, FVal.fge, FVal.fle,
    c1, c2, c3]

/-- C10 witness: a concrete instance of `new_min_max_f_finite_total`, with
the corner arguments in "reversed" order. -/
theorem new_min_max_f_finite_total_witness :
    Vec3F.finite ⟨FVal.fin 5, FVal.fin 5, FVal.fin 5⟩ ∧
    Vec3F.finite ⟨FVal.fin (-1), FVal.fin (-2), FVal.fin (-3)⟩ ∧
    (new_min_max_f ⟨FVal.fin 5, FVal.fin 5, FVal.fin 5⟩
      ⟨FVal.fin (-1), FVal.fin (-2), FVal.fin (-3)⟩).isSome = true :=
  ⟨⟨rfl, rfl, rfl⟩, ⟨rfl, rfl, rfl⟩,
    new_min_max_f_finite_total ⟨FVal.fin 5, FVal.fin 5, FVal.fin 5⟩
      ⟨FVal.fin (-1), FVal.fin (-2), FVal.fin (-3)⟩ ⟨rfl, rfl, rfl⟩ ⟨rfl, rfl, rfl⟩⟩

end AABBF

/-!
Real-valued model of `yaw_pitch_diff` (`src/utils/vec3f.rs`) and
`CameraAnimation` (`src/ecs.rs`).  These use the transcendental functions
`atan2`, `asin`, `sin`, `cos`, so the scalars are modelled by `ℝ`.
-/

open Real

noncomputable section

/-- A 3-vector over `ℝ`. -/
@[ext]
structure Vec3R where
  x : ℝ
  y : ℝ
  z : ℝ

namespace Vec3R

/-- Euclidean norm (`nalgebra`'s `Vector3::norm`). -/
def norm (v : Vec3R) : ℝ := Real.sqrt (v.x ^ 2 + v.y ^ 2 + v.z ^ 2)

/-- `Vector3::normalize`. -/
def normalize (v : Vec3R) : Vec3R := ⟨v.x / v.norm, v.y / v.norm, v.z / v.norm⟩

end Vec3R

/-- Modelled from the spec: the scalar two-argument arctangent
`f32::atan2(a, b)` (file `src/utils/f32.rs` is absent from the provided
sources) — the angle of the point `(x, y) = (b, a)`, with range `(-π, π]`. -/
def atan2 (y x : ℝ) : ℝ :=
  if 0 < x then arctan (y / x)
  else if x < 0 then
    (if 0 ≤ y then arctan (y / x) + π else arctan (y / x) - π)
  else
    (if 0 < y then π / 2 else if y < 0 then -(π / 2) else 0)

theorem atan2_mem_Ioc (y x : ℝ) : -π < atan2 y x ∧ atan2 y x ≤ π := by
  have hpi := pi_pos
  have hb1 := arctan_lt_pi_div_two (y / x)
  have hb2 := neg_pi_div_two_lt_arctan (y / x)
  unfold atan2
  split_ifs with h1 h2 h3 h4 h5
  · constructor <;> linarith
  · have hyx : y / x ≤ 0 := div_nonpos_iff.2 (Or.inl ⟨h3, le_of_lt h2⟩)
    have harc : arctan (y / x) ≤ 0 := by
      have := Real.arctan_strictMono.monotone hyx
      rwa [arctan_zero] at this
    constructor <;> linarith
  · have hy : y < 0 := lt_of_not_le h3
    have hyx : 0 < y / x := div_pos_of_neg_of_neg hy h2
    have harc : 0 < arctan (y / x) := by
      have := Real.arctan_strictMono hyx
      rwa [arctan_zero] at this
    constructor <;> linarith
  · constructor <;> linarith
  · constructor <;> linarith
  · constructor <;> linarith

/-- The wrap applied to a yaw difference: add or subtract `2π` once when the
value falls outside `[-π, π]`.  This is the literal `if dy > PI { dy -= 2π }
else if dy < -PI { dy += 2π }` block, which appears once inside
`yaw_pitch_diff` and once inside `CameraAnimation::new`. -/
def wrapPi (d : ℝ) : ℝ :=
  if d > π then d - 2 * π else if d < -π then d + 2 * π else d

theorem wrapPi_mem_Icc (d : ℝ) (h1 : -(2 * π) < d) (h2 : d < 2 * π) :
    -π ≤ wrapPi d ∧ wrapPi d ≤ π := by
  unfold wrapPi
  split_ifs with ha hb <;> constructor <;> linarith

theorem wrapPi_fix (d : ℝ) (h1 : -π ≤ d) (h2 : d ≤ π) : wrapPi d = d := by
  unfold wrapPi
  split_ifs with ha hb
  · linarith
  · linarith
  · rfl

/-- The yaw of a direction vector: `f32::atan2(v.x, v.z)` on the normalized
vector (from `yaw_pitch_diff` in `src/utils/vec3f.rs`). -/
def vecYaw (v : Vec3R) : ℝ := atan2 v.normalize.x v.normalize.z

/-- The pitch of a direction vector: `f32::asin(-v.y)` on the normalized
vector. -/
def vecPitch (v : Vec3R) : ℝ := arcsin (-v.normalize.y)

/-- `yaw_pitch_diff` from `src/utils/vec3f.rs`: the yaw difference is
wrapped once into range; the pitch difference is not. -/
def yaw_pitch_diff (v1 v2 : Vec3R) : ℝ × ℝ :=
  (wrapPi (vecYaw v2 - vecYaw v1), vecPitch v2 - vecPitch v1)

/-- The yaw delta stored by `CameraAnimation::new`: the first component of
`yaw_pitch_diff` followed by the constructor's own wrap. -/
def cameraYawDelta (v1 v2 : Vec3R) : ℝ := wrapPi ((yaw_pitch_diff v1 v2).1)

def quatRotX (t : ℝ) : Quaternion ℝ := ⟨Real.cos (t / 2), Real.sin (t / 2), 0, 0⟩

def quatRotY (t : ℝ) : Quaternion ℝ := ⟨Real.cos (t / 2), 0, Real.sin (t / 2), 0⟩

def quatRotZ (t : ℝ) : Quaternion ℝ := ⟨Real.cos (t / 2), 0, 0, Real.sin (t / 2)⟩

/-- Modelled from the spec: `nalgebra`'s
`UnitQuaternion::from_euler_angles(roll, pitch, yaw)` — primitive rotations
about x (roll), y (pitch), z (yaw), applied in the order roll, pitch, yaw. -/
def fromEulerAngles (r p y : ℝ) : Quaternion ℝ := quatRotZ y * quatRotY p * quatRotX r

/-- Modelled from the spec: the `Camera` type (file `src/camera.rs` is
absent from the provided sources) — a pose made of a position, a facing
direction, and yaw/pitch orientation quaternions. -/
structure Camera where
  pos : Vec3R
  direction : Vec3R
  yaw_q : Quaternion ℝ
  pitch_q : Quaternion ℝ

/-- `struct CameraAnimation` from `src/ecs.rs`. -/
structure CameraAnimation where
  start_pos : Vec3R
  start_yaw_q : Quaternion ℝ
  start_pitch_q : Quaternion ℝ
  end_pos : Vec3R
  end_yaw_q : Quaternion ℝ
  end_pitch_q : Quaternion ℝ
  start_time : ℝ
  duration : ℝ

/-- `CameraAnimation::new` from `src/ecs.rs`.  Note there is no validation
of `duration` anywhere in the body. -/
def CameraAnimation.new (camera : Camera) (end_position : Vec3R)
    (end_direction : Vec3R) (start_time duration : ℝ) : CameraAnimation :=
  let yaw_diff := wrapPi (yaw_pitch_diff camera.direction end_direction).1
  let pitch_diff := (yaw_pitch_diff camera.direction end_direction).2
  let rot_yaw_q := fromEulerAngles 0 yaw_diff 0
  let rot_pitch_q := fromEulerAngles pitch_diff 0 0
  { start_pos := camera.pos
    start_yaw_q := camera.yaw_q
    start_pitch_q := camera.pitch_q
    end_pos := end_position
    end_yaw_q := rot_yaw_q * camera.yaw_q
    end_pitch_q := rot_pitch_q * camera.pitch_q
    start_time := start_time
    duration := duration }

/-- Modelled from the spec: the scalar cosine-eased interpolation
`clerp` (ease-in/ease-out between `a` and `b`, not clamped). -/
def clerpR (a b t : ℝ) : ℝ := a + (b - a) * ((1 - Real.cos (t * π)) / 2)

/-- Modelled from the spec: `pt3f::clerp`, componentwise cosine-eased
interpolation between two points. -/
def clerpV (a b : Vec3R) (t : ℝ) : Vec3R :=
  ⟨clerpR a.x b.x t, clerpR a.y b.y t, clerpR a.z b.z t⟩

/-- Modelled from the spec: `quat4f::clerp`, spherical interpolation
between two unit quaternions parameterized by `t`. -/
def quatSlerp (q1 q2 : Quaternion ℝ) (t : ℝ) : Quaternion ℝ :=
  let d := q1.re * q2.re + q1.imI * q2.imI + q1.imJ * q2.imJ + q1.imK * q2.imK
  let om := Real.arccos d
  if Real.sin om = 0 then q1
  else (Real.sin ((1 - t) * om) / Real.sin om) • q1 +
    (Real.sin (t * om) / Real.sin om) • q2

/-- `CameraAnimation::at` from `src/ecs.rs` (named `atTime` here because
`at` is reserved): the interpolation parameter is
`(time - start_time) / duration`, with no guard on `duration`. -/
def CameraAnimation.atTime (c : CameraAnimation) (time : ℝ) :
    Vec3R × Quaternion ℝ × Quaternion ℝ :=
  let t := (time - c.start_time) / c.duration
  (clerpV c.start_pos c.end_pos t, quatSlerp c.start_yaw_q c.end_yaw_q t,
    quatSlerp c.start_pitch_q c.end_pitch_q t)

/-- `CameraAnimation::end_time`. -/
def CameraAnimation.end_time (c : CameraAnimation) : ℝ :=
  c.start_time + c.duration

/-- C3: contrary to the claim, `CameraAnimation::new` performs no
validation at all: for every non-positive duration the construction
succeeds and silently stores that duration, and `at(time)` then divides by
the stored duration (parameter `(time - start_time) / duration`). -/
theorem new_accepts_nonpositive_duration (cam : Camera) (ep dir : Vec3R)
    (st d : ℝ) (hd : d ≤ 0) :
    (CameraAnimation.new cam ep dir st d).duration = d ∧
    ∀ time : ℝ, (CameraAnimation.atTime (CameraAnimation.new cam ep dir st d) time).1 =
      clerpV cam.pos ep ((time - st) / d) :=
  ⟨rfl, fun _ => rfl⟩

/-- A concrete camera pose used for evaluating the constructor. -/
def testCamera : Camera := ⟨⟨0, 0, 0⟩, ⟨0, 0, 1⟩, 1, 1⟩

/-- C3 witness: a concrete instance of `new_accepts_nonpositive_duration`
at duration `0`. -/
theorem new_accepts_nonpositive_duration_witness :
    (0 : ℝ) ≤ 0 ∧
    (CameraAnimation.new testCamera ⟨1, 0, 0⟩ ⟨0, 0, 1⟩ 0 0).duration = 0 :=
  ⟨le_refl 0,
    (new_accepts_nonpositive_duration testCamera ⟨1, 0, 0⟩ ⟨0, 0, 1⟩ 0 0
      (le_refl 0)).1⟩

theorem cameraYawDelta_mem (v1 v2 : Vec3R) :
    -π ≤ cameraYawDelta v1 v2 ∧ cameraYawDelta v1 v2 ≤ π := by
  obtain ⟨ha1, ha2⟩ := atan2_mem_Ioc v1.normalize.x v1.normalize.z
  obtain ⟨hb1, hb2⟩ := atan2_mem_Ioc v2.normalize.x v2.normalize.z
  have h := wrapPi_mem_Icc (vecYaw v2 - vecYaw v1)
    (by unfold vecYaw; linarith) (by unfold vecYaw; linarith)
  simp only [cameraYawDelta, yaw_pitch_diff]
  rw [wrapPi_fix _ h.1 h.2]
  exact h

/-- C4 (amended): for non-zero direction vectors the stored yaw delta —
`yaw_pitch_diff` followed by the constructor's wrap — lies in the *closed*
interval `[-π, π]` (the half-open interval `(-π, π]` of the original claim
is off by the single boundary value `-π`), and it is exactly the angle of
the incremental yaw rotation composed into `end_yaw_q`. -/
theorem cameraYawDelta_in_Icc (v1 v2 : Vec3R)
    (h1 : v1 ≠ ⟨0, 0, 0⟩) (h2 : v2 ≠ ⟨0, 0, 0⟩) :
    cameraYawDelta v1 v2 ∈ Set.Icc (-π) π ∧
    ∀ (cam : Camera) (ep : Vec3R) (st du : ℝ), cam.direction = v1 →
      (CameraAnimation.new cam ep v2 st du).end_yaw_q =
        fromEulerAngles 0 (cameraYawDelta v1 v2) 0 * cam.yaw_q := by
  refine ⟨Set.mem_Icc.2 (cameraYawDelta_mem v1 v2), ?_⟩
  rintro cam ep st du rfl
  rfl

/-- C4 witness: a concrete instance of `cameraYawDelta_in_Icc`. -/
theorem cameraYawDelta_in_Icc_witness :
    (⟨0, 0, 1⟩ : Vec3R) ≠ ⟨0, 0, 0⟩ ∧ (⟨1, 0, 0⟩ : Vec3R) ≠ ⟨0, 0, 0⟩ ∧
    cameraYawDelta ⟨0, 0, 1⟩ ⟨1, 0, 0⟩ ∈ Set.Icc (-π) π :=
  ⟨by simp [Vec3R.ext_iff], by simp [Vec3R.ext_iff],
    (cameraYawDelta_in_Icc ⟨0, 0, 1⟩ ⟨1, 0, 0⟩ (by simp [Vec3R.ext_iff])
      (by simp [Vec3R.ext_iff])).1⟩

theorem normalize_unit_z : Vec3R.normalize ⟨0, 0, 1⟩ = ⟨0, 0, 1⟩ := by
  have hs : Real.sqrt ((0 : ℝ) ^ 2 + 0 ^ 2 + 1 ^ 2) = 1 := by norm_num
  ext <;> simp [Vec3R.normalize, Vec3R.norm, hs]

theorem normalize_unit_negz : Vec3R.normalize ⟨0, 0, -1⟩ = ⟨0, 0, -1⟩ := by
  have hs : Real.sqrt ((0 : ℝ) ^ 2 + 0 ^ 2 + (-1) ^ 2) = 1 := by norm_num
  ext <;> simp [Vec3R.normalize, Vec3R.norm, hs]

theorem vecYaw_negz : vecYaw ⟨0, 0, -1⟩ = π := by
  unfold vecYaw
  rw [normalize_unit_negz]
  show atan2 0 (-1) = π
  unfold atan2
  norm_num [arctan_zero]

theorem vecYaw_posz : vecYaw ⟨0, 0, 1⟩ = 0 := by
  unfold vecYaw
  rw [normalize_unit_z]
  show atan2 0 1 = 0
  unfold atan2
  norm_num [arctan_zero]

/-- C4 counterexample: for the non-zero direction vectors `(0,0,-1)` and
`(0,0,1)` the stored yaw delta is exactly `-π`, which is *not* in the
half-open interval `(-π, π]` stated by the claim. -/
theorem cameraYawDelta_not_in_Ioc :
    (⟨0, 0, -1⟩ : Vec3R) ≠ ⟨0, 0, 0⟩ ∧ (⟨0, 0, 1⟩ : Vec3R) ≠ ⟨0, 0, 0⟩ ∧
    cameraYawDelta ⟨0, 0, -1⟩ ⟨0, 0, 1⟩ = -π ∧
    cameraYawDelta ⟨0, 0, -1⟩ ⟨0, 0, 1⟩ ∉ Set.Ioc (-π) π := by
  have hval : cameraYawDelta ⟨0, 0, -1⟩ ⟨0, 0, 1⟩ = -π := by
    have hfix : wrapPi (-π) = -π := wrapPi_fix _ (le_refl _) (by linarith [pi_pos])
    simp only [cameraYawDelta, yaw_pitch_diff, vecYaw_negz, vecYaw_posz, zero_sub,
      hfix]
  refine ⟨by simp [Vec3R.ext_iff], by simp [Vec3R.ext_iff], hval, ?_⟩
  rw [hval]
  simp [Set.mem_Ioc]

end
